import Mathlib

/-!
# Verification of the code2md concurrent file-gathering pipeline

Shallow embedding of the core of the `code2md` repository:
`internal/gatherer/gatherer.go`, `internal/gatherer/gitignore_parser.go`
and the parts of `internal/config/config.go` they use.

Modelling conventions:
* Go strings are Lean `String`s; byte-level algorithms work on `String.data`
  (`List Char`); file contents are `List Nat` (byte values).
* The platform is Unix: `filepath.Separator` is `'/'`, `filepath.ToSlash`
  is the identity, and there are no volume names.
* Go maps `map[string]bool` used as sets are modelled as `List String`
  with membership (`List.contains`).
* Filesystem access is abstracted: the tree being scanned is a `FsTree`
  value, and the result of opening the ignore file is an `OpenResult`.
* Functions that recurse on both a pattern and a string use an explicit
  fuel argument chosen at least as large as a decreasing measure of the
  call, so that evaluation always completes within the provided fuel;
  this keeps every definition reducible by the kernel.
-/

namespace Code2md

/-! ## Go `strings` package helpers (only the parts the sources use) -/

/-- `strings.HasPrefix(s, pre)`. -/
def goStartsWith (s pre : String) : Bool :=
  pre.data.isPrefixOf s.data

/-- `strings.HasSuffix(s, suf)`. -/
def goEndsWith (s suf : String) : Bool :=
  suf.data.isSuffixOf s.data

/-- Scan for `needle` as a contiguous subsequence of `hay`. -/
def containsSeq (needle : List Char) : List Char → Bool
  | [] => needle.isEmpty
  | c :: rest => needle.isPrefixOf (c :: rest) || containsSeq needle rest

/-- `strings.Contains(s, sub)`. -/
def goContainsSub (s sub : String) : Bool :=
  containsSeq sub.data s.data

/-- `strings.TrimPrefix(s, pre)`: drops `pre` when it is a prefix. -/
def goDropStart (s pre : String) : String :=
  if goStartsWith s pre then ⟨s.data.drop pre.data.length⟩ else s

/-- `strings.TrimSuffix(s, suf)`: drops `suf` when it is a suffix. -/
def goDropEnd (s suf : String) : String :=
  if goEndsWith s suf then ⟨s.data.take (s.data.length - suf.data.length)⟩ else s

/-- `strings.TrimSpace(s)`: trims whitespace from both ends. -/
def goTrimSpace (s : String) : String :=
  ⟨((s.data.dropWhile Char.isWhitespace).reverse.dropWhile Char.isWhitespace).reverse⟩

/-! ## Go `path/filepath` helpers (Unix rules)

`splitSlash` mirrors `strings.Split(s, "/")`: it never returns an empty
list, and splitting the empty string gives `[[]]`. -/

def splitSlash : List Char → List (List Char)
  | [] => [[]]
  | c :: rest =>
    if c = '/' then [] :: splitSlash rest
    else
      match splitSlash rest with
      | x :: xs => (c :: x) :: xs
      | [] => [[c]]

/-- Join path elements with `'/'` (no leading separator): the inverse of
`splitSlash` on slash-free nonempty components. -/
def joinRel : List (List Char) → List Char
  | [] => []
  | [c] => c
  | c :: cs => c ++ '/' :: joinRel cs

/-- An absolute path `/c1/c2/...` built from components. -/
def mkAbsL (cs : List (List Char)) : List Char :=
  '/' :: joinRel cs

/-- The component-stack loop of `filepath.Clean`: `acc` is the stack of
already-emitted components in reverse order.  Empty and `"."` elements are
skipped; `".."` pops a poppable component, is dropped at the root of a
rooted path, and is kept otherwise. -/
def cleanSegs (rooted : Bool) : List (List Char) → List (List Char) → List (List Char)
  | acc, [] => acc.reverse
  | acc, c :: cs =>
    if c = [] ∨ c = ['.'] then cleanSegs rooted acc cs
    else if c = ['.', '.'] then
      match acc with
      | a :: rest =>
        if a = ['.', '.'] then cleanSegs rooted (c :: a :: rest) cs
        else cleanSegs rooted rest cs
      | [] => if rooted then cleanSegs rooted [] cs else cleanSegs rooted [c] cs
    else cleanSegs rooted (c :: acc) cs

/-- `filepath.Clean` on Unix, at the level of `List Char`: a rooted path
keeps its leading separator (and a rooted output is never empty); an
unrooted path whose cleaned body is empty becomes `"."`. -/
def goCleanL : List Char → List Char
  | [] => ['.']
  | '/' :: rest =>
    '/' :: joinRel (cleanSegs true [] (splitSlash ('/' :: rest)))
  | c :: rest =>
    let body := joinRel (cleanSegs false [] (splitSlash (c :: rest)))
    if body = [] then ['.'] else body

/-- `filepath.Clean`. -/
def goClean (s : String) : String :=
  ⟨goCleanL s.data⟩

/-- `filepath.Join(a, b)` for two elements: empty elements are skipped and
the joined path is cleaned. -/
def goJoin2 (a b : String) : String :=
  if a = "" then (if b = "" then "" else goClean b)
  else goClean ⟨a.data ++ '/' :: b.data⟩

/-- Path elements of a cleaned path, for `filepath.Rel`'s element walk
(Go sets `base = ""` when the cleaned base is `"."`). -/
def relSegs (c : List Char) : List (List Char) :=
  if c = ['.'] then [] else (splitSlash c).filter (· ≠ [])

/-- Strip the common prefix of two element lists, returning the leftovers. -/
def stripCommon : List (List Char) → List (List Char) → List (List Char) × List (List Char)
  | a :: as, b :: bs =>
    if a = b then stripCommon as bs else (a :: as, b :: bs)
  | as, bs => (as, bs)

/-- `filepath.Rel(base, targ)` on Unix, at the level of `List Char`.
Errors are reported as `Except.error ()`. -/
def goRelL (base targ : List Char) : Except Unit (List Char) :=
  let bc := goCleanL base
  let tc := goCleanL targ
  if tc = bc then .ok ['.']
  else
    let bS := bc.head? = some '/'
    let tS := tc.head? = some '/'
    if bS ≠ tS then .error ()
    else
      let p := stripCommon (relSegs bc) (relSegs tc)
      if p.1.head? = some ['.', '.'] then .error ()
      else if p.1 = [] then .ok (joinRel p.2)
      else .ok (joinRel (List.replicate p.1.length ['.', '.'] ++ p.2))

/-- `filepath.Rel(base, targ)`, with Go's error message. -/
def goRel (base targ : String) : Except String String :=
  match goRelL base.data targ.data with
  | .ok r => .ok ⟨r⟩
  | .error _ => .error ("Rel: cannot make " ++ targ ++ " relative to " ++ base)

instance {e a : Type} [DecidableEq e] [DecidableEq a] : DecidableEq (Except e a) :=
  fun x y =>
    match x, y with
    | .ok v, .ok w =>
      if h : v = w then .isTrue (by rw [h]) else .isFalse (fun hc => by cases hc; exact h rfl)
    | .error v, .error w =>
      if h : v = w then .isTrue (by rw [h]) else .isFalse (fun hc => by cases hc; exact h rfl)
    | .ok _, .error _ => .isFalse (fun hc => nomatch hc)
    | .error _, .ok _ => .isFalse (fun hc => nomatch hc)

/-- `filepath.Base` on Unix: strip trailing slashes, then keep what follows
the last separator. -/
def goBase (path : String) : String :=
  if path = "" then "."
  else
    let p := ((path.data.reverse.dropWhile (· = '/'))).reverse
    if p = [] then "/"
    else ⟨(p.reverse.takeWhile (· ≠ '/')).reverse⟩

/-- `filepath.Ext`: scan backwards from the end until a separator, returning
the suffix from the last dot.  `acc` holds the scanned suffix. -/
def goExtAux : List Char → List Char → String
  | [], _ => ""
  | c :: rest, acc =>
    if c = '/' then ""
    else if c = '.' then ⟨'.' :: acc⟩
    else goExtAux rest (c :: acc)

/-- `filepath.Ext(path)`. -/
def goExt (path : String) : String :=
  goExtAux path.data.reverse []

/-- `filepath.ToSlash`: the identity on Unix, where the separator already
is `'/'`. -/
def goToSlash (s : String) : String := s

/-! ## The `gobwas/glob` matching engine, restricted to the fragment the
gatherer can produce

`glob.Compile(p, '/')` is modelled for patterns made of literal characters,
`?`, `*`, `**` and one level of `{...,...}` alternation (the translation of
ignore lines only emits `{,**/}`).  Patterns using `[`, `\`, nested braces
or a stray `}` are treated as compile failures, which the loader skips —
the same effect as a `gobwas` compile error. -/

/-- Atomic pattern pieces: a literal character, `?` (one non-separator),
`*` (any run without separator), `**` (any run). -/
inductive GSimple where
  | lit (c : Char)
  | one
  | any
  | superAny
deriving DecidableEq, Repr

/-- A compiled pattern node: an atom, or a brace alternation whose
alternatives are atom sequences. -/
inductive GNode where
  | simple (g : GSimple)
  | alt (alts : List (List GSimple))
deriving DecidableEq, Repr

/-- Parse a brace-free pattern fragment into atoms. -/
def parseSimples : List Char → Option (List GSimple)
  | [] => some []
  | '*' :: '*' :: rest => (parseSimples rest).map (.superAny :: ·)
  | '*' :: rest => (parseSimples rest).map (.any :: ·)
  | '?' :: rest => (parseSimples rest).map (.one :: ·)
  | '{' :: _ => none
  | '}' :: _ => none
  | '[' :: _ => none
  | '\\' :: _ => none
  | c :: rest => (parseSimples rest).map (.lit c :: ·)

/-- Scan up to the closing `}`: returns the content before it and the rest. -/
def spanBrace : List Char → Option (List Char × List Char)
  | [] => none
  | '}' :: rest => some ([], rest)
  | c :: rest => (spanBrace rest).map (fun p => (c :: p.1, p.2))

/-- Split brace content on `,`. -/
def splitComma : List Char → List (List Char)
  | [] => [[]]
  | ',' :: rest => [] :: splitComma rest
  | c :: rest =>
    match splitComma rest with
    | x :: xs => (c :: x) :: xs
    | [] => [[c]]

/-- Parse a pattern into nodes; `fuel` bounds the recursion and is always
sufficient when it exceeds the input length, since every step consumes at
least one character. -/
def parseNodesF : Nat → List Char → Option (List GNode)
  | 0, _ => none
  | _ + 1, [] => some []
  | fuel + 1, '{' :: rest =>
    match spanBrace rest with
    | none => none
    | some (inner, rest') =>
      if inner.contains '{' then none
      else
        match (splitComma inner).mapM parseSimples, parseNodesF fuel rest' with
        | some alts, some ns => some (.alt alts :: ns)
        | _, _ => none
  | fuel + 1, '*' :: '*' :: rest => (parseNodesF fuel rest).map (.simple .superAny :: ·)
  | fuel + 1, '*' :: rest => (parseNodesF fuel rest).map (.simple .any :: ·)
  | fuel + 1, '?' :: rest => (parseNodesF fuel rest).map (.simple .one :: ·)
  | _ + 1, '}' :: _ => none
  | _ + 1, '[' :: _ => none
  | _ + 1, '\\' :: _ => none
  | fuel + 1, c :: rest => (parseNodesF fuel rest).map (.simple (.lit c) :: ·)

/-- `glob.Compile(p, '/')`: `none` models a compile error. -/
def globCompile (p : String) : Option (List GNode) :=
  parseNodesF (p.data.length + 1) p.data

/-- Size measure for the matcher's fuel. -/
def gsize : GNode → Nat
  | .simple _ => 1
  | .alt alts => 1 + (alts.map (fun a => a.length + 1)).sum

/-- Size of a node list. -/
def gssize (ps : List GNode) : Nat :=
  (ps.map gsize).sum

/-- The matcher: `matchF fuel ps s` decides whether the node sequence `ps`
matches all of `s`, with `'/'` as the separator that `?` and `*` do not
cross.  Each step strictly decreases `gssize ps + s.length`, so any fuel
above that measure gives the full matching semantics. -/
def matchF : Nat → List GNode → List Char → Bool
  | 0, _, _ => false
  | _ + 1, [], s => s.isEmpty
  | fuel + 1, .simple (.lit c) :: ps, s =>
    match s with
    | [] => false
    | x :: xs => c == x && matchF fuel ps xs
  | fuel + 1, .simple .one :: ps, s =>
    match s with
    | [] => false
    | x :: xs => !(x == '/') && matchF fuel ps xs
  | fuel + 1, .simple .any :: ps, s =>
    matchF fuel ps s ||
      (match s with
       | [] => false
       | x :: xs => !(x == '/') && matchF fuel (.simple .any :: ps) xs)
  | fuel + 1, .simple .superAny :: ps, s =>
    matchF fuel ps s ||
      (match s with
       | [] => false
       | _ :: xs => matchF fuel (.simple .superAny :: ps) xs)
  | fuel + 1, .alt alts :: ps, s =>
    alts.any (fun a => matchF fuel (a.map .simple ++ ps) s)

/-- `g.Match(s)` for a compiled pattern. -/
def globMatch (ps : List GNode) (s : String) : Bool :=
  matchF (gssize ps + s.data.length + 1) ps s.data

/-! ## `gitignore_parser.go` -/

/-- `translateGitignoreToGlobs`: one ignore line becomes the literal glob
and the recursive-descendant glob. -/
def translateGitignoreToGlobs (line : String) : List String :=
  let line1 :=
    if goEndsWith line "/" then goDropEnd line "/" else line
  let line2 :=
    if !goContainsSub line1 "/" then "\x7b,**/\x7d" ++ line1
    else if goStartsWith line1 "/" then goDropStart line1 "/"
    else line1
  [line2, line2 ++ "/**"]

/-- Errors of the modelled Go functions.  `notExist` is the class that
`os.IsNotExist` recognises; `cancelled` stands for `ctx.Err()` after the
caller's cancellation signal fires. -/
inductive GoErr where
  | notExist
  | permission
  | cancelled
  | other (msg : String)
deriving DecidableEq, Repr

/-- `os.IsNotExist` on an `error` value (`nil` is `none`). -/
def osIsNotExist : Option GoErr → Bool
  | some .notExist => true
  | _ => false

/-- Outcome of `os.Open` on the `.gitignore` at the scan root: the file is
missing, unreadable for another reason (permissions, I/O), or readable
with the given lines. -/
inductive OpenResult where
  | notExist
  | otherError
  | content (lines : List String)
deriving DecidableEq, Repr

/-- `GitignoreParser`: compiled patterns plus the scan root. -/
structure GitignoreParser where
  patterns : List (List GNode)
  basePath : String
deriving DecidableEq, Repr

/-- `NewGitignoreParser`. -/
def NewGitignoreParser (basePath : String) : GitignoreParser :=
  { patterns := [], basePath := basePath }

/-- The scanner loop of `LoadGitignore`: trim each line, skip blanks,
comments and negation lines, translate the rest and keep the globs that
compile. -/
def gitignoreLinePatterns (lines : List String) : List (List GNode) :=
  lines.flatMap fun raw =>
    let line := goTrimSpace raw
    if line = "" || goStartsWith line "#" || goStartsWith line "!" then []
    else (translateGitignoreToGlobs line).filterMap globCompile

/-- `LoadGitignore` on a parser, given the outcome of opening
`<basePath>/.gitignore`: a missing file is not an error and leaves the
pattern list empty; any other open failure is returned as the error (with
the pattern list still empty); otherwise the lines are parsed. -/
def LoadGitignore (gp : GitignoreParser) (fs : OpenResult) :
    GitignoreParser × Option GoErr :=
  match fs with
  | .notExist => (gp, none)
  | .otherError => (gp, some .permission)
  | .content lines => ({ gp with patterns := gp.patterns ++ gitignoreLinePatterns lines }, none)

/-- `ShouldIgnore`: relativise against the root (errors and the root itself
are never ignored), normalise separators, and test every pattern. -/
def ShouldIgnore (gp : GitignoreParser) (filePath : String) : Bool :=
  match goRel gp.basePath filePath with
  | .error _ => false
  | .ok relPath =>
    if relPath = "." then false
    else
      let relPath2 := goToSlash relPath
      gp.patterns.any (fun g => globMatch g relPath2)

/-! ## `config.go` -/

/-- `config.Config`. -/
structure Config where
  OutputFile : String := ""
  IncludeExt : List String := []
  ExcludeExt : List String := []
  ExcludeDirs : List String := []
  MaxFileSize : Int := 1048576
  IncludeHidden : Bool := false
  Verbose : Bool := false
  DryRun : Bool := false
deriving DecidableEq, Repr

/-- `config.DefaultExtensions`. -/
def DefaultExtensions : List String :=
  [".go", ".py", ".js", ".ts", ".java", ".c", ".cpp", ".h", ".hpp",
   ".cs", ".php", ".rb", ".rs", ".swift", ".kt", ".scala", ".sh",
   ".sql", ".html", ".css", ".scss", ".less", ".vue", ".jsx", ".tsx",
   ".yaml", ".yml", ".json", ".xml", ".toml", ".ini", ".cfg", ".conf",
   ".md", ".txt", ".rst", ".dockerfile", "Dockerfile", "Makefile"]

/-- `config.DefaultExcludeDirs`. -/
def DefaultExcludeDirs : List String :=
  [".git", ".svn", ".hg", "node_modules", "vendor", "target", "build",
   "dist", "out", ".idea", ".vscode", "__pycache__", ".pytest_cache",
   ".tox", "venv", ".env", ".venv", "env", ".DS_Store", "thumbs.db",
   "coverage"]

/-- `config.DefaultExcludeFiles`. -/
def DefaultExcludeFiles : List String :=
  ["pnpm-lock.yaml", "bun.lockb", "codebase.md"]

/-! ## `gatherer.go` -/

/-- `FileInfo`: one gathered file (`Content` is the byte string). -/
structure FileInfo where
  Path : String
  Size : Int
  Content : List Nat
deriving DecidableEq, Repr

/-- `FileGatherer`. -/
structure FileGatherer where
  config : Config
  rootPath : String
  gitignoreParser : GitignoreParser
  gitignoreExists : Bool
deriving DecidableEq, Repr

/-- `NewFileGatherer`: loads the ignore file and records
`gitignoreExists := !os.IsNotExist(err)`; a load failure other than
non-existence is only logged (`logger.Warn`), never returned. -/
def NewFileGatherer (cfg : Config) (rootPath : String) (fs : OpenResult) :
    FileGatherer :=
  let gp := NewGitignoreParser rootPath
  let loaded := LoadGitignore gp fs
  let gitignoreExists := !osIsNotExist loaded.2
  { config := cfg
    rootPath := rootPath
    gitignoreParser := loaded.1
    gitignoreExists := gitignoreExists }

/-- Membership in a Go `map[string]bool` built by setting keys to `true`. -/
def memb (m : List String) (k : String) : Bool :=
  m.contains k

/-- `prepareExtensionFilters`: the include set is the caller's list or the
defaults; the exclude set merges caller exclusions with the default
excluded filenames. -/
def prepareExtensionFilters (fg : FileGatherer) : List String × List String :=
  ((if fg.config.IncludeExt.isEmpty then DefaultExtensions else fg.config.IncludeExt),
   fg.config.ExcludeExt ++ DefaultExcludeFiles)

/-- `prepareDirFilters`: version-control directories only when
`gitignoreExists`, the comprehensive default list otherwise, plus the
caller's exclusions. -/
def prepareDirFilters (fg : FileGatherer) (gitignoreExists : Bool) : List String :=
  (if gitignoreExists then [".git", ".svn", ".hg"] else DefaultExcludeDirs)
    ++ fg.config.ExcludeDirs

/-- `shouldSkipHidden`. -/
def shouldSkipHidden (fg : FileGatherer) (name : String) : Bool :=
  !fg.config.IncludeHidden && goStartsWith name "."

/-- `shouldIncludeFile`. -/
def shouldIncludeFile (fg : FileGatherer) (path : String)
    (extInclude extExclude : List String) : Bool :=
  let fileName := goBase path
  let ext := goExt path
  if memb extExclude fileName then false
  else if fg.config.IncludeHidden && goStartsWith fileName "." then
    if ext != "" && memb extExclude ext then false
    else if memb extExclude fileName then false
    else true
  else if ext = "" then memb extInclude fileName
  else memb extInclude ext && !memb extExclude ext

/-- `isBinary`: any zero byte, or a non-printable ratio above 30%.  The Go
comparison `float64(n)/float64(len) > 0.3` is modelled exactly by the
integer test `10*n > 3*len` (they agree for every file size a filesystem
can produce). -/
def isBinary (data : List Nat) : Bool :=
  if data.any (· == 0) then true
  else
    let nonPrintable :=
      (data.filter (fun b => decide (b < 32 ∧ b ≠ 9 ∧ b ≠ 10 ∧ b ≠ 13))).length
    if 0 < data.length ∧ 10 * nonPrintable > 3 * data.length then true
    else false

/-! ## The scanned filesystem and the producer walk

A directory's entry list is encoded as a chain: `dcons name child rest`
is a directory whose first entry is `name ↦ child` and whose remaining
entries form the directory `rest` (ending in `dnil`).  This is the usual
isomorphic unfolding of `dir (entries : List (String × FsTree))` that
keeps every recursion structural.  `filepath.WalkDir` visits a directory's
entries in lexical name order; the chain is taken in visit order (the
pipeline's final sort makes every property below independent of sibling
order). -/

inductive FsTree where
  | file (content : List Nat)
  | dnil
  | dcons (name : String) (child : FsTree) (rest : FsTree)
deriving DecidableEq, Repr

/-- The chain after `dcons` must again be a directory chain. -/
def isDirChain : FsTree → Bool
  | .file _ => false
  | .dnil => true
  | .dcons _ _ _ => true

/-- The entry names of a directory chain. -/
def chainNames : FsTree → List String
  | .dcons n _ rest => n :: chainNames rest
  | _ => []

/-- A directory entry name as the OS yields it: nonempty, free of the
separator, and never the special entries `.` or `..`. -/
def validNameB (n : String) : Bool :=
  !(n = "") && !(n.data.contains '/') && !(n = ".") && !(n = "..")

/-- Well-formedness of a scanned tree: names are valid and siblings are
distinct, as on a real filesystem. -/
def wfB : FsTree → Bool
  | .file _ => true
  | .dnil => true
  | .dcons n c rest =>
    validNameB n && wfB c && wfB rest && isDirChain rest
      && !(chainNames rest).contains n

/-- A candidate emitted by the producer: the walked path plus the bytes the
worker will read there (the tree does not change during a scan, so the
walk may carry the content along). -/
structure Candidate where
  path : String
  content : List Nat
deriving DecidableEq, Repr

/-- The `producer` walk (`filepath.WalkDir` from `path`), restricted to an
uncancelled, access-error-free walk: gitignore matches prune first, then
directory exclusion and hidden checks; surviving files are sent to the
workers.  Walking `dcons` repeats the (pure) directory checks of its
chain, which is sound because they are deterministic in `path`. -/
def producer (fg : FileGatherer) (dirExclude : List String) :
    String → FsTree → List Candidate
  | path, .file content =>
    if ShouldIgnore fg.gitignoreParser path then []
    else if shouldSkipHidden fg (goBase path) then []
    else [⟨path, content⟩]
  | _, .dnil => []
  | path, .dcons n child rest =>
    if ShouldIgnore fg.gitignoreParser path then []
    else if memb dirExclude (goBase path) || shouldSkipHidden fg (goBase path) then []
    else
      producer fg dirExclude (goJoin2 path n) child
        ++ producer fg dirExclude path rest

/-- The relative-path computation of `processFile`: `filepath.Rel` with
fallback to the absolute path when relativisation fails. -/
def relOf (rootPath path : String) : String :=
  match goRel rootPath path with
  | .ok r => r
  | .error _ => path

/-- `processFile` for a candidate the producer emitted: filter-policy
check, size threshold, binary sniff, and relativisation with fallback to
the absolute path (`relOf`).  `os.Stat`/`os.ReadFile` cannot fail on the
abstract tree, so those skip branches are not reachable in the model. -/
def processFile (fg : FileGatherer) (extInclude extExclude : List String)
    (c : Candidate) : Option FileInfo :=
  if !shouldIncludeFile fg c.path extInclude extExclude then none
  else
    let size : Int := c.content.length
    if size > fg.config.MaxFileSize then none
    else if isBinary c.content then none
    else some ⟨relOf fg.rootPath c.path, size, c.content⟩

/-- All candidates of a scan: the producer walk from the root with the
prepared directory filters. -/
def gatherCandidates (fg : FileGatherer) (t : FsTree) : List Candidate :=
  producer fg (prepareDirFilters fg fg.gitignoreExists) fg.rootPath t

/-- The records the worker pool accepts, in producer order.  The workers
emit these in a nondeterministic interleaving; theorems quantify over a
permutation of this list. -/
def processedFiles (fg : FileGatherer) (t : FsTree) : List FileInfo :=
  (gatherCandidates fg t).filterMap
    (processFile fg (prepareExtensionFilters fg).1 (prepareExtensionFilters fg).2)

/-- Lexicographic comparison of character lists by code point — the order
`<` of Go strings (UTF-8 byte order agrees with code-point order). -/
def charsLe : List Char → List Char → Bool
  | [], _ => true
  | _ :: _, [] => false
  | a :: as, b :: bs =>
    if a.toNat < b.toNat then true
    else if b.toNat < a.toNat then false
    else charsLe as bs

/-- The collector's final ordering relation (`sort.Slice` by `Path <`);
stated as the reflexive closure `≤` for the sort, with strictness
recovered from distinctness of paths. -/
def fileLE (a b : FileInfo) : Prop := charsLe a.Path.data b.Path.data = true

instance : DecidableRel fileLE :=
  fun a b => inferInstanceAs (Decidable (charsLe a.Path.data b.Path.data = true))

theorem charsLe_total (xs ys : List Char) :
    charsLe xs ys = true ∨ charsLe ys xs = true := by
  induction xs generalizing ys with
  | nil => left; rfl
  | cons a as ih =>
    cases ys with
    | nil => right; rfl
    | cons b bs =>
      by_cases hab : a.toNat < b.toNat
      · left; simp [charsLe, hab]
      · by_cases hba : b.toNat < a.toNat
        · right; simp [charsLe, hba]
        · rcases ih bs with h | h
          · left; simp [charsLe, hab, hba, h]
          · right; simp [charsLe, hab, hba, h]

theorem charsLe_trans {xs ys zs : List Char} (h1 : charsLe xs ys = true)
    (h2 : charsLe ys zs = true) : charsLe xs zs = true := by
  induction xs generalizing ys zs with
  | nil => rfl
  | cons a as ih =>
    cases ys with
    | nil => simp [charsLe] at h1
    | cons b bs =>
      cases zs with
      | nil => simp [charsLe] at h2
      | cons c cs =>
        simp only [charsLe] at h1 h2 ⊢
        by_cases hab : a.toNat < b.toNat
        · by_cases hbc : b.toNat < c.toNat
          · have hac : a.toNat < c.toNat := by omega
            simp [hac]
          · by_cases hcb : c.toNat < b.toNat
            · simp [hbc, hcb] at h2
            · have hac : a.toNat < c.toNat := by omega
              simp [hac]
        · by_cases hba : b.toNat < a.toNat
          · simp [hab, hba] at h1
          · by_cases hbc : b.toNat < c.toNat
            · have hac : a.toNat < c.toNat := by omega
              simp [hac]
            · by_cases hcb : c.toNat < b.toNat
              · simp [hbc, hcb] at h2
              · have h1' : charsLe as bs = true := by simpa [hab, hba] using h1
                have h2' : charsLe bs cs = true := by simpa [hbc, hcb] using h2
                have hac : ¬ a.toNat < c.toNat := by omega
                have hca : ¬ c.toNat < a.toNat := by omega
                simp [hac, hca]
                exact ih h1' h2' 

instance : IsTotal FileInfo fileLE := ⟨fun a b => charsLe_total a.Path.data b.Path.data⟩

instance : IsTrans FileInfo fileLE := ⟨fun _ _ _ h h' => charsLe_trans h h'⟩

/-- The collector's sort. -/
def sortByPath (files : List FileInfo) : List FileInfo :=
  files.insertionSort fileLE

/-- `GatherFiles`, after the pipeline has run: `scanErr` is the value of
`g.Wait()` (`none` when producer and all workers returned `nil`; a
propagated cancellation or any worker/producer error otherwise) and
`drained` is the list the collector goroutine drained from the results
channel.  On error the drained records are discarded and `nil` is
returned; otherwise the list is sorted by `Path` ascending. -/
def GatherFiles (fg : FileGatherer) (scanErr : Option GoErr)
    (drained : List FileInfo) : List FileInfo × Option GoErr :=
  match scanErr with
  | some e => ([], some e)
  | none => (sortByPath drained, none)

/-! ## Path algebra for the walk proofs

Scan roots are addressed by their component lists: `mkAbs cs` is the
absolute path `/c1/.../ck`, and a well-formed root/tree only involves
valid entry names, which is what a real filesystem provides. -/

/-- All names in a component list are valid entry names. -/
def validNames (cs : List String) : Bool :=
  cs.all validNameB

/-- The absolute path with the given components (`mkAbs [] = "/"`). -/
def mkAbs (cs : List String) : String :=
  ⟨mkAbsL (cs.map (·.data))⟩

/-- Valid components at the character-list level. -/
def validCompsL (cs : List (List Char)) : Prop :=
  ∀ c ∈ cs, c ≠ [] ∧ '/' ∉ c ∧ c ≠ ['.'] ∧ c ≠ ['.', '.']

theorem validNameB_spec {n : String} (h : validNameB n = true) :
    n.data ≠ [] ∧ '/' ∉ n.data ∧ n.data ≠ ['.'] ∧ n.data ≠ ['.', '.'] := by
  unfold validNameB at h
  simp only [Bool.and_eq_true, Bool.not_eq_true'] at h
  obtain ⟨⟨⟨h1, h2⟩, h3⟩, h4⟩ := h
  refine ⟨?_, ?_, ?_, ?_⟩
  · intro hd
    have hn : n = "" := by cases n; simp_all
    simp [hn] at h1
  · intro hm
    simp at h2
    exact h2 hm
  · intro hd
    have hn : n = "." := by cases n; simp_all [String.ext_iff]
    simp [hn] at h3
  · intro hd
    have hn : n = ".." := by cases n; simp_all [String.ext_iff]
    simp [hn] at h4

theorem validNames_spec {cs : List String} (h : validNames cs = true) :
    validCompsL (cs.map (·.data)) := by
  intro c hc
  simp only [List.mem_map] at hc
  obtain ⟨n, hn, rfl⟩ := hc
  exact validNameB_spec (by simpa using (List.all_eq_true.mp h n hn))

theorem splitSlash_cons_ne {x : Char} (hx : x ≠ '/') {l : List Char}
    {y : List Char} {ys : List (List Char)} (h : splitSlash l = y :: ys) :
    splitSlash (x :: l) = (x :: y) :: ys := by
  simp only [splitSlash, hx, if_false]
  rw [h]

theorem splitSlash_noSlash {c : List Char} (h : '/' ∉ c) :
    splitSlash c = [c] := by
  induction c with
  | nil => rfl
  | cons x xs ih =>
    have hx : x ≠ '/' := fun hx => h (hx ▸ List.mem_cons_self x xs)
    have hxs : '/' ∉ xs := fun hm => h (List.mem_cons_of_mem x hm)
    exact splitSlash_cons_ne hx (ih hxs)

theorem splitSlash_append_slash {c : List Char} (rest : List Char) (h : '/' ∉ c) :
    splitSlash (c ++ '/' :: rest) = c :: splitSlash rest := by
  induction c with
  | nil => simp [splitSlash]
  | cons x xs ih =>
    have hx : x ≠ '/' := fun hx => h (hx ▸ List.mem_cons_self x xs)
    have hxs : '/' ∉ xs := fun hm => h (List.mem_cons_of_mem x hm)
    exact splitSlash_cons_ne hx (ih hxs)

theorem joinRel_cons₂ (c d : List Char) (cs : List (List Char)) :
    joinRel (c :: d :: cs) = c ++ '/' :: joinRel (d :: cs) := rfl

theorem splitSlash_joinRel {cs : List (List Char)} (hne : cs ≠ [])
    (h : ∀ c ∈ cs, '/' ∉ c) : splitSlash (joinRel cs) = cs := by
  induction cs with
  | nil => exact absurd rfl hne
  | cons c cs ih =>
    cases cs with
    | nil => exact splitSlash_noSlash (h c (List.mem_cons_self c []))
    | cons d ds =>
      rw [joinRel_cons₂, splitSlash_append_slash _ (h c (List.mem_cons_self c _)),
        ih (by simp) (fun x hx => h x (List.mem_cons_of_mem c hx))]

theorem cleanSegs_valid {cs : List (List Char)} (r : Bool)
    (h : validCompsL cs) : ∀ acc, cleanSegs r acc cs = acc.reverse ++ cs := by
  induction cs with
  | nil => intro acc; simp [cleanSegs]
  | cons c cs ih =>
    intro acc
    obtain ⟨h1, _, h3, h4⟩ := h c (List.mem_cons_self c cs)
    have hrest : validCompsL cs := fun x hx => h x (List.mem_cons_of_mem c hx)
    simp only [cleanSegs, h1, h3, h4, or_self, if_false, false_or]
    rw [ih hrest (c :: acc)]
    simp

theorem cleanSegs_skip_nil (r : Bool) (acc : List (List Char))
    (cs : List (List Char)) : cleanSegs r acc ([] :: cs) = cleanSegs r acc cs := by
  simp [cleanSegs]

theorem goCleanL_mkAbs {cs : List (List Char)} (h : validCompsL cs) :
    goCleanL (mkAbsL cs) = mkAbsL cs := by
  unfold mkAbsL
  cases cs with
  | nil => rfl
  | cons c cs =>
    have hslash : ∀ x ∈ c :: cs, '/' ∉ x := fun x hx => (h x hx).2.1
    show goCleanL ('/' :: joinRel (c :: cs)) = '/' :: joinRel (c :: cs)
    rw [show goCleanL ('/' :: joinRel (c :: cs))
        = '/' :: joinRel (cleanSegs true [] (splitSlash ('/' :: joinRel (c :: cs))))
      from rfl]
    rw [show splitSlash ('/' :: joinRel (c :: cs)) = [] :: (c :: cs) by
      have hsj := splitSlash_joinRel (show c :: cs ≠ [] by simp) hslash
      simp [splitSlash, hsj]]
    rw [cleanSegs_skip_nil, cleanSegs_valid true h []]
    rfl

theorem joinRel_append_single {cs : List (List Char)} (hne : cs ≠ []) (n : List Char) :
    joinRel (cs ++ [n]) = joinRel cs ++ '/' :: n := by
  induction cs with
  | nil => exact absurd rfl hne
  | cons c cs ih =>
    cases cs with
    | nil => rfl
    | cons d ds =>
      have h1 : (c :: d :: ds) ++ [n] = c :: d :: (ds ++ [n]) := by simp
      have ih' : joinRel (d :: (ds ++ [n])) = joinRel (d :: ds) ++ '/' :: n := by
        rw [← List.cons_append]
        exact ih (by simp)
      rw [h1, joinRel_cons₂, ih', joinRel_cons₂]
      simp

theorem validCompsL_append_single {cs : List (List Char)} {n : List Char}
    (h : validCompsL cs) (hn : n ≠ [] ∧ '/' ∉ n ∧ n ≠ ['.'] ∧ n ≠ ['.', '.']) :
    validCompsL (cs ++ [n]) := by
  intro x hx
  rcases List.mem_append.mp hx with hx | hx
  · exact h x hx
  · simp only [List.mem_singleton] at hx
    exact hx ▸ hn

theorem goJoin2_mkAbsL {cs : List (List Char)} {n : List Char}
    (h : validCompsL cs) (hn : n ≠ [] ∧ '/' ∉ n ∧ n ≠ ['.'] ∧ n ≠ ['.', '.']) :
    goCleanL (mkAbsL cs ++ '/' :: n) = mkAbsL (cs ++ [n]) := by
  have hval : validCompsL (cs ++ [n]) := validCompsL_append_single h hn
  cases cs with
  | nil =>
    show goCleanL ('/' :: ('/' :: n)) = mkAbsL [n]
    rw [show goCleanL ('/' :: ('/' :: n))
        = '/' :: joinRel (cleanSegs true [] (splitSlash ('/' :: '/' :: n))) from rfl]
    rw [show splitSlash ('/' :: '/' :: n) = [[], [], n] by
      simp [splitSlash, splitSlash_noSlash hn.2.1]]
    rw [cleanSegs_skip_nil, cleanSegs_skip_nil,
      cleanSegs_valid true (fun x hx => by
        simp only [List.mem_singleton] at hx
        exact hx ▸ hn) []]
    rfl
  | cons c cs =>
    have heq : mkAbsL (c :: cs) ++ '/' :: n = mkAbsL ((c :: cs) ++ [n]) := by
      unfold mkAbsL
      rw [joinRel_append_single (by simp) n]
      simp
    rw [heq, goCleanL_mkAbs hval]

theorem relSegs_mkAbs {cs : List (List Char)} (h : validCompsL cs) :
    relSegs (mkAbsL cs) = cs := by
  unfold relSegs mkAbsL
  cases cs with
  | nil => simp [splitSlash]
  | cons c cs =>
    have hslash : ∀ x ∈ c :: cs, '/' ∉ x := fun x hx => (h x hx).2.1
    have hsplit : splitSlash ('/' :: joinRel (c :: cs)) = [] :: (c :: cs) := by
      have hsj := splitSlash_joinRel (show c :: cs ≠ [] by simp) hslash
      simp [splitSlash, hsj]
    have hne : ('/' :: joinRel (c :: cs)) ≠ ['.'] := by
      intro hc
      have := congrArg (·.head?) hc
      simp at this
    have hnn : ∀ x ∈ c :: cs, x ≠ [] := fun x hx => (h x hx).1
    simp only [hne, if_false, hsplit]
    rw [List.filter_cons_of_neg (by simp)]
    exact List.filter_eq_self.mpr (fun a ha => by simpa using hnn a ha)

theorem stripCommon_pref (l m : List (List Char)) :
    stripCommon l (l ++ m) = ([], m) := by
  induction l with
  | nil => cases m <;> rfl
  | cons a as ih => simpa [stripCommon] using ih

theorem takeWhile_append_stop {p : Char → Bool} {a : List Char} (rest : List Char)
    (ha : ∀ x ∈ a, p x = true)
    (hr : rest = [] ∨ ∃ y ys, rest = y :: ys ∧ p y = false) :
    (a ++ rest).takeWhile p = a ∧ (a ++ rest).dropWhile p = rest := by
  induction a with
  | nil =>
    rcases hr with rfl | ⟨y, ys, rfl, hy⟩
    · simp
    · simp [List.takeWhile_cons, List.dropWhile_cons, hy]
  | cons x xs ih =>
    have hx : p x = true := ha x (List.mem_cons_self x xs)
    have ih' := ih (fun z hz => ha z (List.mem_cons_of_mem x hz))
    simp [List.takeWhile_cons, List.dropWhile_cons, hx, ih'.1, ih'.2]

theorem joinRel_cons_ne_nil {c : List Char} (hc : c ≠ []) (cs : List (List Char)) :
    joinRel (c :: cs) ≠ [] := by
  cases cs with
  | nil => exact hc
  | cons d ds =>
    rw [joinRel_cons₂]
    intro h
    exact hc (List.append_eq_nil.mp h).1

theorem joinRel_inj : ∀ {a b : List (List Char)}, validCompsL a → validCompsL b →
    joinRel a = joinRel b → a = b := by
  intro a
  induction a with
  | nil =>
    intro b _ hb h
    cases b with
    | nil => rfl
    | cons c cs =>
      exact absurd h.symm (joinRel_cons_ne_nil (hb c (List.mem_cons_self c cs)).1 cs)
  | cons x xs ih =>
    intro b ha hb h
    cases b with
    | nil =>
      exact absurd h (joinRel_cons_ne_nil (ha x (List.mem_cons_self x xs)).1 xs)
    | cons y ys =>
      have hxv := ha x (List.mem_cons_self x xs)
      have hyv := hb y (List.mem_cons_self y ys)
      cases xs with
      | nil =>
        cases ys with
        | nil => simpa [joinRel] using h
        | cons y' ys' =>
          rw [joinRel_cons₂] at h
          exfalso
          apply hxv.2.1
          rw [show joinRel [x] = x from rfl] at h
          rw [h]
          exact List.mem_append.mpr (Or.inr (List.mem_cons_self '/' _))
      | cons x' xs' =>
        cases ys with
        | nil =>
          rw [joinRel_cons₂] at h
          exfalso
          apply hyv.2.1
          rw [show joinRel [y] = y from rfl] at h
          rw [← h]
          exact List.mem_append.mpr (Or.inr (List.mem_cons_self '/' _))
        | cons y' ys' =>
          rw [joinRel_cons₂, joinRel_cons₂] at h
          have hpx : ∀ z ∈ x, (decide (z ≠ '/')) = true := fun z hz => by
            simp only [decide_eq_true_eq, ne_eq]
            intro hzs
            exact hxv.2.1 (hzs ▸ hz)
          have hpy : ∀ z ∈ y, (decide (z ≠ '/')) = true := fun z hz => by
            simp only [decide_eq_true_eq, ne_eq]
            intro hzs
            exact hyv.2.1 (hzs ▸ hz)
          have tx := takeWhile_append_stop (p := fun z => decide (z ≠ '/'))
            ('/' :: joinRel (x' :: xs')) hpx
            (Or.inr ⟨'/', _, rfl, by simp⟩)
          have ty := takeWhile_append_stop (p := fun z => decide (z ≠ '/'))
            ('/' :: joinRel (y' :: ys')) hpy
            (Or.inr ⟨'/', _, rfl, by simp⟩)
          have hxy : x = y := by
            rw [← tx.1, ← ty.1, h]
          have hrest : joinRel (x' :: xs') = joinRel (y' :: ys') := by
            have := tx.2.symm.trans (h ▸ ty.2)
            exact List.cons_injective this
          have hxs : validCompsL (x' :: xs') :=
            fun z hz => ha z (List.mem_cons_of_mem x hz)
          have hys : validCompsL (y' :: ys') :=
            fun z hz => hb z (List.mem_cons_of_mem y hz)
          rw [hxy, ih hxs hys hrest]

theorem validCompsL_append {a b : List (List Char)}
    (ha : validCompsL a) (hb : validCompsL b) : validCompsL (a ++ b) := by
  intro x hx
  rcases List.mem_append.mp hx with hx | hx
  · exact ha x hx
  · exact hb x hx

theorem mkAbsL_inj {a b : List (List Char)} (ha : validCompsL a)
    (hb : validCompsL b) (h : mkAbsL a = mkAbsL b) : a = b := by
  unfold mkAbsL at h
  exact joinRel_inj ha hb (List.cons_injective h)

theorem goRelL_mkAbs {rc cs : List (List Char)} (hrc : validCompsL rc)
    (hcs : validCompsL cs) (hne : cs ≠ []) :
    goRelL (mkAbsL rc) (mkAbsL (rc ++ cs)) = .ok (joinRel cs) := by
  have hall : validCompsL (rc ++ cs) := validCompsL_append hrc hcs
  have hneq : mkAbsL (rc ++ cs) ≠ mkAbsL rc := by
    intro h
    have h2 := mkAbsL_inj hall hrc h
    have hcs0 : cs = [] := by
      have hlen := congrArg List.length h2
      simpa using hlen
    exact hne hcs0
  simp only [goRelL, goCleanL_mkAbs hrc, goCleanL_mkAbs hall, hneq, if_false]
  rw [relSegs_mkAbs hrc, relSegs_mkAbs hall, stripCommon_pref]
  simp [mkAbsL]

/-- The relative path with the given components (no leading separator). -/
def joinComps (cs : List String) : String :=
  ⟨joinRel (cs.map (·.data))⟩

theorem stringData_inj : Function.Injective String.data := by
  intro a b h
  cases a; cases b; exact congrArg String.mk h

theorem mkAbs_inj {a b : List String} (ha : validNames a = true)
    (hb : validNames b = true) (h : mkAbs a = mkAbs b) : a = b := by
  have h1 : mkAbsL (a.map (·.data)) = mkAbsL (b.map (·.data)) := congrArg String.data h
  have h2 := mkAbsL_inj (validNames_spec ha) (validNames_spec hb) h1
  exact (List.map_injective_iff.mpr stringData_inj) h2

theorem mkAbs_ne_empty (cs : List String) : mkAbs cs ≠ "" := by
  intro h
  have := congrArg String.data h
  simp [mkAbs, mkAbsL] at this

theorem goJoin2_mkAbs {cs : List String} {n : String}
    (h : validNames cs = true) (hn : validNameB n = true) :
    goJoin2 (mkAbs cs) n = mkAbs (cs ++ [n]) := by
  unfold goJoin2
  rw [if_neg (mkAbs_ne_empty cs)]
  show goClean ⟨(mkAbs cs).data ++ '/' :: n.data⟩ = mkAbs (cs ++ [n])
  unfold goClean mkAbs
  apply congrArg
  show goCleanL (mkAbsL (cs.map (·.data)) ++ '/' :: n.data)
      = mkAbsL ((cs ++ [n]).map (·.data))
  rw [goJoin2_mkAbsL (validNames_spec h) (validNameB_spec hn)]
  simp

theorem goRel_mkAbs {rc cs : List String} (hrc : validNames rc = true)
    (hcs : validNames cs = true) (hne : cs ≠ []) :
    goRel (mkAbs rc) (mkAbs (rc ++ cs)) = .ok (joinComps cs) := by
  unfold goRel
  have hL : goRelL (mkAbs rc).data (mkAbs (rc ++ cs)).data
      = .ok (joinRel (cs.map (·.data))) := by
    show goRelL (mkAbsL (rc.map (·.data))) (mkAbsL ((rc ++ cs).map (·.data)))
        = .ok (joinRel (cs.map (·.data)))
    rw [List.map_append]
    exact goRelL_mkAbs (validNames_spec hrc) (validNames_spec hcs)
      (fun h => hne (List.map_eq_nil_iff.mp h))
  rw [hL]
  rfl

theorem goBase_pre_slash {pre : List Char} {n : String}
    (h1 : n.data ≠ []) (h2 : '/' ∉ n.data) :
    goBase ⟨pre ++ '/' :: n.data⟩ = n := by
  unfold goBase
  have hne : (⟨pre ++ '/' :: n.data⟩ : String) ≠ "" := by
    intro h
    have := congrArg String.data h
    simp at this
  rw [if_neg hne]
  have hrev : (pre ++ '/' :: n.data).reverse
      = n.data.reverse ++ '/' :: pre.reverse := by
    simp
  have hdropped : ((pre ++ '/' :: n.data).reverse.dropWhile (· = '/'))
      = (pre ++ '/' :: n.data).reverse := by
    rw [hrev]
    cases hd : n.data.reverse with
    | nil => exact absurd (by simpa using hd) h1
    | cons y ys =>
      have hy : y ∈ n.data := by
        have : y ∈ n.data.reverse := hd ▸ List.mem_cons_self y ys
        simpa using this
      have hy' : ¬ ((fun x => decide (x = '/')) y = true) := by
        simp only [decide_eq_true_eq]
        intro hc
        exact h2 (hc ▸ hy)
      exact List.dropWhile_cons_of_neg hy'
  rw [show (⟨pre ++ '/' :: n.data⟩ : String).data = pre ++ '/' :: n.data from rfl]
  simp only [hdropped, List.reverse_reverse]
  rw [if_neg (by simp)]
  have hall : ∀ x ∈ n.data.reverse, (fun x => decide (x ≠ '/')) x = true := by
    intro x hx
    simp only [decide_eq_true_eq, ne_eq]
    intro hc
    exact h2 (hc ▸ (List.mem_reverse.mp hx))
  have htake := (takeWhile_append_stop (p := fun x => decide (x ≠ '/'))
    ('/' :: pre.reverse) hall (Or.inr ⟨'/', _, rfl, by simp⟩)).1
  rw [hrev, htake, List.reverse_reverse]

theorem validNames_iff {cs : List String} :
    validNames cs = true ↔ ∀ x ∈ cs, validNameB x = true :=
  List.all_eq_true

theorem goBase_mkAbs_append {q : List String} {n : String}
    (hn : validNameB n = true) : goBase (mkAbs (q ++ [n])) = n := by
  obtain ⟨h1, h2, _, _⟩ := validNameB_spec hn
  cases q with
  | nil =>
    show goBase ⟨[] ++ '/' :: n.data⟩ = n
    exact goBase_pre_slash h1 h2
  | cons c cs =>
    have hdata : (mkAbs ((c :: cs) ++ [n])).data
        = ('/' :: joinRel ((c :: cs).map (·.data))) ++ '/' :: n.data := by
      show mkAbsL (((c :: cs) ++ [n]).map (·.data)) = _
      rw [List.map_append]
      unfold mkAbsL
      simp only [List.map_cons, List.map_nil]
      rw [joinRel_append_single (by simp) n.data]
      simp
    have heq : mkAbs ((c :: cs) ++ [n])
        = ⟨('/' :: joinRel ((c :: cs).map (·.data))) ++ '/' :: n.data⟩ :=
      congrArg String.mk hdata
    rw [heq]
    exact goBase_pre_slash h1 h2

theorem producer_hidden_nil {fg : FileGatherer} {d : List String} {p : String}
    (t : FsTree) (hh : fg.config.IncludeHidden = false)
    (hb : goStartsWith (goBase p) "." = true) :
    producer fg d p t = [] := by
  have hs : shouldSkipHidden fg (goBase p) = true := by
    simp [shouldSkipHidden, hh, hb]
  cases t with
  | file content =>
    by_cases h1 : ShouldIgnore fg.gitignoreParser p = true <;> simp [producer, h1, hs]
  | dnil => rfl
  | dcons n child rest =>
    by_cases h1 : ShouldIgnore fg.gitignoreParser p = true <;> simp [producer, h1, hs]

/-- Every candidate the producer emits below `mkAbs q` sits at
`mkAbs (q ++ cs)` for valid components `cs`; below a directory chain the
components start with one of the chain's entry names; and with hidden
files excluded every component is unhidden. -/
theorem producer_path_spec {fg : FileGatherer} {d : List String} :
    ∀ (t : FsTree) (q : List String), wfB t = true → validNames q = true →
      ∀ c ∈ producer fg d (mkAbs q) t,
        ∃ cs : List String, validNames cs = true ∧ c.path = mkAbs (q ++ cs)
          ∧ (isDirChain t = true → ∃ m cs2, cs = m :: cs2 ∧ m ∈ chainNames t)
          ∧ (fg.config.IncludeHidden = false →
              ∀ m ∈ cs, goStartsWith m "." = false) := by
  intro t
  induction t with
  | file content =>
    intro q hwf hq c hc
    by_cases h1 : ShouldIgnore fg.gitignoreParser (mkAbs q) = true
    · simp [producer, h1] at hc
    · by_cases h2 : shouldSkipHidden fg (goBase (mkAbs q)) = true
      · simp [producer, h1, h2] at hc
      · simp only [producer, h1, h2, if_false, Bool.false_eq_true, List.mem_singleton] at hc
        refine ⟨[], rfl, ?_, ?_, ?_⟩
        · rw [hc]
          simp
        · intro hdc
          simp [isDirChain] at hdc
        · intro _ m hm
          exact absurd hm (List.not_mem_nil m)
  | dnil =>
    intro q hwf hq c hc
    simp [producer] at hc
  | dcons n child rest ihc ihr =>
    intro q hwf hq c hc
    have hw : validNameB n = true ∧ wfB child = true ∧ wfB rest = true
        ∧ isDirChain rest = true ∧ ((chainNames rest).contains n) = false := by
      unfold wfB at hwf
      simp only [Bool.and_eq_true, Bool.not_eq_true'] at hwf
      exact ⟨hwf.1.1.1.1, hwf.1.1.1.2, hwf.1.1.2, hwf.1.2, hwf.2⟩
    obtain ⟨hwn, hwc, hwr, hdr, hnm⟩ := hw
    by_cases h1 : ShouldIgnore fg.gitignoreParser (mkAbs q) = true
    · simp [producer, h1] at hc
    · by_cases h2 : (memb d (goBase (mkAbs q))
          || shouldSkipHidden fg (goBase (mkAbs q))) = true
      · simp [producer, h1, h2] at hc
      · simp only [producer, h1, h2, if_false, Bool.false_eq_true] at hc
        rw [goJoin2_mkAbs hq hwn] at hc
        have hq' : validNames (q ++ [n]) = true := by
          rw [validNames_iff]
          intro x hx
          rcases List.mem_append.mp hx with hx | hx
          · exact validNames_iff.mp hq x hx
          · simp only [List.mem_singleton] at hx
            exact hx ▸ hwn
        rcases List.mem_append.mp hc with hc' | hc'
        · obtain ⟨cs, hcs, hpath, _, hhid⟩ := ihc (q ++ [n]) hwc hq' c hc'
          refine ⟨n :: cs, ?_, ?_, ?_, ?_⟩
          · rw [validNames_iff]
            intro x hx
            rcases List.mem_cons.mp hx with rfl | hx
            · exact hwn
            · exact validNames_iff.mp hcs x hx
          · rw [hpath]
            congr 1
            simp
          · intro _
            exact ⟨n, cs, rfl, by simp [chainNames]⟩
          · intro hh m hm
            rcases List.mem_cons.mp hm with rfl | hm
            · by_contra hcon
              have hmt : goStartsWith m "." = true := by
                cases hgs : goStartsWith m "." with
                | true => rfl
                | false => exact absurd hgs hcon
              have hnil : producer fg d (mkAbs (q ++ [m])) child = [] :=
                producer_hidden_nil child hh (by rw [goBase_mkAbs_append hwn]; exact hmt)
              rw [hnil] at hc'
              exact List.not_mem_nil c hc'
            · exact hhid hh m hm
        · obtain ⟨cs, hcs, hpath, hdir, hhid⟩ := ihr q hwr hq c hc'
          refine ⟨cs, hcs, hpath, ?_, hhid⟩
          intro _
          obtain ⟨m, cs2, rfl, hm⟩ := hdir hdr
          exact ⟨m, cs2, rfl, by simp [chainNames]; right; exact hm⟩

/-- The candidate paths the producer emits below a well-formed tree are
pairwise distinct. -/
theorem producer_paths_nodup {fg : FileGatherer} {d : List String} :
    ∀ (t : FsTree) (q : List String), wfB t = true → validNames q = true →
      ((producer fg d (mkAbs q) t).map (·.path)).Nodup := by
  intro t
  induction t with
  | file content =>
    intro q hwf hq
    by_cases h1 : ShouldIgnore fg.gitignoreParser (mkAbs q) = true
    · simp [producer, h1]
    · by_cases h2 : shouldSkipHidden fg (goBase (mkAbs q)) = true <;>
        simp [producer, h1, h2]
  | dnil =>
    intro q hwf hq
    simp [producer]
  | dcons n child rest ihc ihr =>
    intro q hwf hq
    have hw : validNameB n = true ∧ wfB child = true ∧ wfB rest = true
        ∧ isDirChain rest = true ∧ ((chainNames rest).contains n) = false := by
      unfold wfB at hwf
      simp only [Bool.and_eq_true, Bool.not_eq_true'] at hwf
      exact ⟨hwf.1.1.1.1, hwf.1.1.1.2, hwf.1.1.2, hwf.1.2, hwf.2⟩
    obtain ⟨hwn, hwc, hwr, hdr, hnm⟩ := hw
    by_cases h1 : ShouldIgnore fg.gitignoreParser (mkAbs q) = true
    · simp [producer, h1]
    · by_cases h2 : (memb d (goBase (mkAbs q))
          || shouldSkipHidden fg (goBase (mkAbs q))) = true
      · simp [producer, h1, h2]
      · simp only [producer, h1, h2, if_false, Bool.false_eq_true]
        rw [goJoin2_mkAbs hq hwn]
        have hq' : validNames (q ++ [n]) = true := by
          rw [validNames_iff]
          intro x hx
          rcases List.mem_append.mp hx with hx | hx
          · exact validNames_iff.mp hq x hx
          · simp only [List.mem_singleton] at hx
            exact hx ▸ hwn
        rw [List.map_append]
        refine List.Nodup.append (ihc (q ++ [n]) hwc hq') (ihr q hwr hq) ?_
        intro x hxA hxB
        obtain ⟨c1, hc1, hx1⟩ := List.mem_map.mp hxA
        obtain ⟨c2, hc2, hx2⟩ := List.mem_map.mp hxB
        obtain ⟨cs1, hcs1, hp1, _, _⟩ :=
          producer_path_spec child (q ++ [n]) hwc hq' c1 hc1
        obtain ⟨cs2, hcs2, hp2, hdir2, _⟩ :=
          producer_path_spec rest q hwr hq c2 hc2
        obtain ⟨m, cs3, rfl, hm⟩ := hdir2 hdr
        have hv1 : validNames ((q ++ [n]) ++ cs1) = true := by
          rw [validNames_iff]
          intro z hz
          rcases List.mem_append.mp hz with hz | hz
          · exact validNames_iff.mp hq' z hz
          · exact validNames_iff.mp hcs1 z hz
        have hv2 : validNames (q ++ m :: cs3) = true := by
          rw [validNames_iff]
          intro z hz
          rcases List.mem_append.mp hz with hz | hz
          · exact validNames_iff.mp hq z hz
          · exact validNames_iff.mp hcs2 z hz
        have hpe : mkAbs ((q ++ [n]) ++ cs1) = mkAbs (q ++ m :: cs3) := by
          rw [← hp1, ← hp2, hx1, hx2]
        have hce := mkAbs_inj hv1 hv2 hpe
        rw [List.append_assoc] at hce
        have := List.append_cancel_left hce
        have hnm' : n = m := by
          simpa using congrArg List.head? this
        apply absurd hm
        intro hmem
        have : (chainNames rest).contains n = true := by
          rw [List.elem_iff]
          exact hnm' ▸ hmem
        rw [this] at hnm
        exact Bool.true_eq_false.mp hnm

theorem processFile_path {fg : FileGatherer} {inc exc : List String}
    {c : Candidate} {r : FileInfo} (h : processFile fg inc exc c = some r) :
    r.Path = relOf fg.rootPath c.path := by
  unfold processFile at h
  by_cases h1 : (!shouldIncludeFile fg c.path inc exc) = true
  · simp [h1] at h
  · by_cases h2 : (c.content.length : Int) > fg.config.MaxFileSize
    · simp [h1, h2] at h
    · by_cases h3 : isBinary c.content = true
      · simp [h1, h2, h3] at h
      · simp only [h1, h2, h3, if_false, Bool.false_eq_true, if_neg,
          Option.some.injEq] at h
        rw [← h]

theorem filterMap_path_sublist (fg : FileGatherer) (inc exc : List String) :
    ∀ l : List Candidate,
      List.Sublist ((l.filterMap (processFile fg inc exc)).map (·.Path))
        (l.map (fun c => relOf fg.rootPath c.path)) := by
  intro l
  induction l with
  | nil => simp
  | cons a l ih =>
    cases hp : processFile fg inc exc a with
    | none =>
      rw [List.filterMap_cons_none hp, List.map_cons]
      exact ih.cons _
    | some r =>
      rw [List.filterMap_cons_some hp, List.map_cons, List.map_cons,
        processFile_path hp]
      exact ih.cons₂ _

theorem joinComps_inj {a b : List String} (ha : validNames a = true)
    (hb : validNames b = true) (h : joinComps a = joinComps b) : a = b := by
  have h1 : joinRel (a.map (·.data)) = joinRel (b.map (·.data)) :=
    congrArg String.data h
  have := joinRel_inj (validNames_spec ha) (validNames_spec hb) h1
  exact (List.map_injective_iff.mpr stringData_inj) this

theorem relOf_mkAbs {rc cs : List String} (hrc : validNames rc = true)
    (hcs : validNames cs = true) (hne : cs ≠ []) :
    relOf (mkAbs rc) (mkAbs (rc ++ cs)) = joinComps cs := by
  unfold relOf
  rw [goRel_mkAbs hrc hcs hne]

/-- The accepted records of a scan of a well-formed directory chain have
pairwise-distinct `Path`s. -/
theorem processedFiles_paths_nodup {cfg : Config} {fs : OpenResult}
    {rc : List String} {t : FsTree}
    (hwf : wfB t = true) (hdir : isDirChain t = true)
    (hrc : validNames rc = true) :
    ((processedFiles (NewFileGatherer cfg (mkAbs rc) fs) t).map (·.Path)).Nodup := by
  have hroot : (NewFileGatherer cfg (mkAbs rc) fs).rootPath = mkAbs rc := rfl
  set fg := NewFileGatherer cfg (mkAbs rc) fs with hfg
  set d := prepareDirFilters fg fg.gitignoreExists with hd
  have hcands : gatherCandidates fg t = producer fg d (mkAbs rc) t := by
    unfold gatherCandidates
    rw [hroot]
  have hnodup : ((gatherCandidates fg t).map (·.path)).Nodup := by
    rw [hcands]
    exact producer_paths_nodup t rc hwf hrc
  have hpair : ((gatherCandidates fg t).map
      (fun c => relOf fg.rootPath c.path)).Nodup := by
    have hnodup2 : (gatherCandidates fg t).Pairwise
        (fun c1 c2 => c1.path ≠ c2.path) := List.pairwise_map.mp hnodup
    refine List.pairwise_map.mpr ?_
    refine hnodup2.imp_of_mem ?_
    intro c1 c2 hm1 hm2 hne12 heq
    rw [hcands] at hm1 hm2
    obtain ⟨cs1, hcs1, hp1, hd1, _⟩ := producer_path_spec t rc hwf hrc c1 hm1
    obtain ⟨cs2, hcs2, hp2, hd2, _⟩ := producer_path_spec t rc hwf hrc c2 hm2
    obtain ⟨m1, cs1t, rfl, _⟩ := hd1 hdir
    obtain ⟨m2, cs2t, rfl, _⟩ := hd2 hdir
    rw [hroot, hp1, hp2, relOf_mkAbs hrc hcs1 (by simp),
      relOf_mkAbs hrc hcs2 (by simp)] at heq
    have := joinComps_inj hcs1 hcs2 heq
    apply hne12
    rw [hp1, hp2, this]
  refine List.Nodup.sublist ?_ hpair
  exact filterMap_path_sublist fg _ _ (gatherCandidates fg t)

theorem nodup_of_length_le_one {α : Type} {l : List α} (h : l.length ≤ 1) :
    l.Nodup := by
  cases l with
  | nil => simp
  | cons a t =>
    cases t with
    | nil => simp
    | cons b t2 => simp at h

/-- For a single-file root, the scan accepts at most one record. -/
theorem processedFiles_file_short {fg : FileGatherer} {content : List Nat} :
    (processedFiles fg (.file content)).length ≤ 1 := by
  unfold processedFiles gatherCandidates
  have hlen : (producer fg (prepareDirFilters fg fg.gitignoreExists)
      fg.rootPath (.file content)).length ≤ 1 := by
    by_cases h1 : ShouldIgnore fg.gitignoreParser fg.rootPath = true
    · simp [producer, h1]
    · by_cases h2 : shouldSkipHidden fg (goBase fg.rootPath) = true <;>
        simp [producer, h1, h2]
  calc ((producer fg _ fg.rootPath (.file content)).filterMap _).length
      ≤ (producer fg _ fg.rootPath (.file content)).length :=
        List.length_filterMap_le _ _
    _ ≤ 1 := hlen

theorem lex_of_charsLe_ne : ∀ {xs ys : List Char}, charsLe xs ys = true →
    xs ≠ ys → List.Lex (· < ·) xs ys := by
  intro xs
  induction xs with
  | nil =>
    intro ys _ hne
    cases ys with
    | nil => exact absurd rfl hne
    | cons b bs => exact List.Lex.nil
  | cons a as ih =>
    intro ys h hne
    cases ys with
    | nil => simp [charsLe] at h
    | cons b bs =>
      by_cases hab : a.toNat < b.toNat
      · exact List.Lex.rel (Char.lt_def.mpr hab)
      · by_cases hba : b.toNat < a.toNat
        · simp [charsLe, hab, hba] at h
        · have hveq : a = b := by
            have : a.toNat = b.toNat := by omega
            exact Char.eq_of_val_eq (by
              apply UInt32.eq_of_val_eq
              apply Fin.eq_of_val_eq
              exact this)
          subst hveq
          have h' : charsLe as bs = true := by simpa [charsLe, hab, hba] using h
          have hne' : as ≠ bs := fun hc => hne (by rw [hc])
          exact List.Lex.cons (ih h' hne')

theorem path_lt_of_le_ne {a b : FileInfo} (hle : fileLE a b)
    (hne : a.Path ≠ b.Path) : a.Path < b.Path := by
  apply String.lt_iff_toList_lt.mpr
  exact lex_of_charsLe_ne hle (fun hc => hne (stringData_inj hc))

/-- Claim C1: for every scan that completes without error, the returned
list is sorted strictly ascending by `Path` with no duplicates, whatever
order the concurrent workers emitted the records in (`drained` is an
arbitrary permutation of the accepted records). -/
theorem GatherFiles_sorted_strict (cfg : Config) (fs : OpenResult)
    (rc : List String) (t : FsTree) (drained : List FileInfo)
    (hwf : wfB t = true) (hrc : validNames rc = true)
    (hperm : List.Perm drained
      (processedFiles (NewFileGatherer cfg (mkAbs rc) fs) t)) :
    ((GatherFiles (NewFileGatherer cfg (mkAbs rc) fs) none drained).1).Pairwise
      (fun a b => a.Path < b.Path) := by
  set fg := NewFileGatherer cfg (mkAbs rc) fs with hfg
  have hres : (GatherFiles fg none drained).1 = sortByPath drained := rfl
  rw [hres]
  have hsorted : List.Pairwise fileLE (sortByPath drained) :=
    List.sorted_insertionSort fileLE drained
  have hnp : ((processedFiles fg t).map (·.Path)).Nodup := by
    cases t with
    | file content =>
      exact nodup_of_length_le_one
        (by simpa using @processedFiles_file_short fg content)
    | dnil => exact processedFiles_paths_nodup hwf rfl hrc
    | dcons n child rest => exact processedFiles_paths_nodup hwf rfl hrc
  have hperm2 : List.Perm (sortByPath drained) (processedFiles fg t) :=
    (List.perm_insertionSort fileLE drained).trans hperm
  have hnd : ((sortByPath drained).map (·.Path)).Nodup :=
    ((hperm2.map (·.Path)).nodup_iff).mpr hnp
  have hpne : (sortByPath drained).Pairwise (fun a b => a.Path ≠ b.Path) :=
    List.pairwise_map.mp hnd
  exact (hsorted.and hpne).imp (fun h => path_lt_of_le_ne h.1 h.2)

/-- Claim C1 witness: a two-file scan whose workers emitted the records in
reverse name order still yields the strictly ascending list. -/
theorem GatherFiles_sorted_strict_witness :
    wfB (FsTree.dcons "b.go" (.file [98]) (.dcons "a.go" (.file [97]) .dnil)) = true
    ∧ validNames ["r"] = true
    ∧ List.Perm
        (processedFiles (NewFileGatherer {} (mkAbs ["r"]) .notExist)
          (FsTree.dcons "b.go" (.file [98]) (.dcons "a.go" (.file [97]) .dnil))).reverse
        (processedFiles (NewFileGatherer {} (mkAbs ["r"]) .notExist)
          (FsTree.dcons "b.go" (.file [98]) (.dcons "a.go" (.file [97]) .dnil)))
    ∧ ((GatherFiles (NewFileGatherer {} (mkAbs ["r"]) .notExist) none
        (processedFiles (NewFileGatherer {} (mkAbs ["r"]) .notExist)
          (FsTree.dcons "b.go" (.file [98]) (.dcons "a.go" (.file [97]) .dnil))).reverse).1).Pairwise
        (fun a b => a.Path < b.Path) := by
  refine ⟨by decide, by decide, List.reverse_perm _, ?_⟩
  exact GatherFiles_sorted_strict {} .notExist ["r"]
    (FsTree.dcons "b.go" (.file [98]) (.dcons "a.go" (.file [97]) .dnil))
    _ (by decide) (by decide) (List.reverse_perm _)


/-- No component of the (slash-separated) path starts with the
hidden-file marker. -/
def hiddenFreeB (p : String) : Bool :=
  (splitSlash p.data).all (fun c => !(c.head? = some '.'))

theorem head_ne_dot_of_not_startsWith {m : String}
    (h : goStartsWith m "." = false) : m.data.head? ≠ some '.' := by
  cases hd : m.data with
  | nil => simp
  | cons c cs =>
    unfold goStartsWith at h
    rw [show (("." : String)).data = ['.'] from rfl, hd] at h
    simp only [List.isPrefixOf, List.isPrefixOf_nil_left, Bool.and_true] at h
    simp only [List.head?_cons, ne_eq, Option.some.injEq]
    intro hc
    subst hc
    simp at h

theorem hiddenFreeB_joinComps {cs : List String} (hcs : validNames cs = true)
    (hne : cs ≠ []) (hh : ∀ m ∈ cs, goStartsWith m "." = false) :
    hiddenFreeB (joinComps cs) = true := by
  unfold hiddenFreeB joinComps
  rw [show (⟨joinRel (cs.map (·.data))⟩ : String).data
      = joinRel (cs.map (·.data)) from rfl]
  rw [splitSlash_joinRel (fun hc => hne (List.map_eq_nil_iff.mp hc))
    (fun x hx => ((validNames_spec hcs) x hx).2.1)]
  rw [List.all_eq_true]
  intro x hx
  obtain ⟨m, hm, rfl⟩ := List.mem_map.mp hx
  have := head_ne_dot_of_not_startsWith (hh m hm)
  simpa using this

/-- Claim C9: with `include-hidden` off, every candidate the producer
emits lies at a root-relative path whose components are all unhidden
(hidden directories are pruned with their entire subtrees), and every
record in the returned list has a `Path` free of hidden components. -/
theorem hidden_excluded_when_flag_false (cfg : Config) (fs : OpenResult)
    (rc : List String) (t : FsTree) (drained : List FileInfo)
    (hh : cfg.IncludeHidden = false)
    (hwf : wfB t = true) (hdir : isDirChain t = true)
    (hrc : validNames rc = true)
    (hperm : List.Perm drained
      (processedFiles (NewFileGatherer cfg (mkAbs rc) fs) t)) :
    (∀ c ∈ gatherCandidates (NewFileGatherer cfg (mkAbs rc) fs) t,
        ∃ r, goRel (mkAbs rc) c.path = .ok r ∧ hiddenFreeB r = true)
    ∧ ∀ rec ∈ (GatherFiles (NewFileGatherer cfg (mkAbs rc) fs) none drained).1,
        hiddenFreeB rec.Path = true := by
  set fg := NewFileGatherer cfg (mkAbs rc) fs with hfg
  have hroot : fg.rootPath = mkAbs rc := rfl
  have hcfg : fg.config.IncludeHidden = false := hh
  have hcands : gatherCandidates fg t
      = producer fg (prepareDirFilters fg fg.gitignoreExists) (mkAbs rc) t := by
    unfold gatherCandidates
    rw [hroot]
  have hcand_spec : ∀ c ∈ gatherCandidates fg t,
      ∃ cs : List String, validNames cs = true ∧ cs ≠ []
        ∧ c.path = mkAbs (rc ++ cs)
        ∧ (∀ m ∈ cs, goStartsWith m "." = false) := by
    intro c hc
    rw [hcands] at hc
    obtain ⟨cs, hcs, hp, hd2, hhid⟩ := producer_path_spec t rc hwf hrc c hc
    obtain ⟨m, cs2, rfl, _⟩ := hd2 hdir
    exact ⟨m :: cs2, hcs, by simp, hp, hhid hcfg⟩
  constructor
  · intro c hc
    obtain ⟨cs, hcs, hne, hp, hhid⟩ := hcand_spec c hc
    refine ⟨joinComps cs, ?_, ?_⟩
    · rw [hp]
      exact goRel_mkAbs hrc hcs hne
    · exact hiddenFreeB_joinComps hcs hne hhid
  · intro rec hrec
    have hrec2 : rec ∈ drained :=
      ((List.perm_insertionSort fileLE drained).mem_iff).mp hrec
    have hrec3 : rec ∈ processedFiles fg t := (hperm.mem_iff).mp hrec2
    obtain ⟨c, hc, hpf⟩ := List.mem_filterMap.mp hrec3
    obtain ⟨cs, hcs, hne, hp, hhid⟩ := hcand_spec c hc
    have hpath : rec.Path = relOf fg.rootPath c.path := processFile_path hpf
    rw [hpath, hroot, hp, relOf_mkAbs hrc hcs hne]
    exact hiddenFreeB_joinComps hcs hne hhid

/-- Claim C9 witness: scanning `{a.go, .git/c.go}` with hidden files off,
instantiating the theorem at the identity permutation. -/
theorem hidden_excluded_when_flag_false_witness :
    ({} : Config).IncludeHidden = false
    ∧ wfB (FsTree.dcons "a.go" (.file [97])
        (.dcons ".git" (.dcons "c.go" (.file [99]) .dnil) .dnil)) = true
    ∧ ((∀ c ∈ gatherCandidates (NewFileGatherer {} (mkAbs ["r"]) .notExist)
          (FsTree.dcons "a.go" (.file [97])
            (.dcons ".git" (.dcons "c.go" (.file [99]) .dnil) .dnil)),
        ∃ r, goRel (mkAbs ["r"]) c.path = .ok r ∧ hiddenFreeB r = true)
      ∧ ∀ rec ∈ (GatherFiles (NewFileGatherer {} (mkAbs ["r"]) .notExist) none
          (processedFiles (NewFileGatherer {} (mkAbs ["r"]) .notExist)
            (FsTree.dcons "a.go" (.file [97])
              (.dcons ".git" (.dcons "c.go" (.file [99]) .dnil) .dnil)))).1,
          hiddenFreeB rec.Path = true) := by
  refine ⟨rfl, by decide, ?_⟩
  exact hidden_excluded_when_flag_false {} .notExist ["r"]
    (FsTree.dcons "a.go" (.file [97])
      (.dcons ".git" (.dcons "c.go" (.file [99]) .dnil) .dnil))
    _ rfl (by decide) rfl (by decide) (List.Perm.refl _)


/-- The count of bytes below 32 other than tab (9), line feed (10) and
carriage return (13), as the specification describes the binary
heuristic's numerator. -/
def nonPrintableCount (data : List Nat) : Nat :=
  (data.filter (fun b => decide (b < 32 ∧ b ≠ 9 ∧ b ≠ 10 ∧ b ≠ 13))).length

/-- Modelled from the spec: the ordered decision rule of §4.2 word for
word — (1) reject an excluded exact filename; (2) when hidden files are
included and the name starts with `.`, accept unless its extension or
exact filename is excluded; (3) without an extension, accept iff the
exact filename is in the include set; (4) otherwise accept iff the
extension is included and not excluded. -/
def shouldIncludeFileSpec (includeHidden : Bool) (path : String)
    (extInclude extExclude : List String) : Bool :=
  let fileName := goBase path
  let ext := goExt path
  if memb extExclude fileName then false
  else if includeHidden && goStartsWith fileName "." then
    !((ext != "" && memb extExclude ext) || memb extExclude fileName)
  else if ext = "" then memb extInclude fileName
  else memb extInclude ext && !memb extExclude ext

/-! ## Claims -/

/-- Claim C4: `isBinary` is true exactly when the content has a zero byte
or its non-printable count (tab, LF, CR excluded) strictly exceeds 30% of
the length; empty content is never binary; and a candidate whose content
is binary is dropped by `processFile`. -/
theorem isBinary_zero_or_ratio (data : List Nat) :
    (isBinary data = true ↔
      (0 ∈ data ∨ 10 * nonPrintableCount data > 3 * data.length))
    ∧ isBinary [] = false
    ∧ (∀ (fg : FileGatherer) (extInclude extExclude : List String) (c : Candidate),
        isBinary c.content = true →
          processFile fg extInclude extExclude c = none) := by
  refine ⟨?_, by decide, ?_⟩
  · unfold isBinary nonPrintableCount
    by_cases hz : data.any (· == 0)
    · simp only [hz, if_true, true_iff]
      left
      rcases List.any_eq_true.mp hz with ⟨x, hx, hb⟩
      have hx0 : x = 0 := by simpa using hb
      exact hx0 ▸ hx
    · simp only [hz, if_false, Bool.false_eq_true]
      have hz' : ¬ (0 ∈ data) := fun h => hz (List.any_eq_true.mpr ⟨0, h, by simp⟩)
      by_cases hr : 0 < data.length ∧
          10 * (data.filter (fun b => decide (b < 32 ∧ b ≠ 9 ∧ b ≠ 10 ∧ b ≠ 13))).length
            > 3 * data.length
      · simp [hr, hz', hr.2]
      · simp only [hr, if_false]
        constructor
        · intro h; exact absurd h (by simp)
        · rintro (h | h)
          · exact absurd h hz'
          · exact absurd ⟨by
              rcases data with _ | ⟨a, as⟩
              · simp [nonPrintableCount] at h
              · simp, h⟩ hr
  · intro fg extInclude extExclude c hbin
    unfold processFile
    by_cases hinc : shouldIncludeFile fg c.path extInclude extExclude
    · by_cases hsz : (c.content.length : Int) > fg.config.MaxFileSize
      · simp [hinc, hsz]
      · simp [hinc, hsz, hbin]
    · simp [hinc]

/-- Claim C4 witness: the theorem applied to content `[0]` (a zero byte)
with a concrete gatherer and candidate. -/
theorem isBinary_zero_or_ratio_witness :
    isBinary [0] = true ∧
      processFile (NewFileGatherer {} "/r" .notExist) [".go"] []
        ⟨"/r/x.go", [0]⟩ = none := by
  refine ⟨by decide, ?_⟩
  exact (isBinary_zero_or_ratio [0]).2.2
    (NewFileGatherer {} "/r" .notExist) [".go"] [] ⟨"/r/x.go", [0]⟩ (by decide)

/-- Claim C5: `shouldIncludeFile` implements exactly the ordered
include/exclude rule of the specification (modelled word for word as
`shouldIncludeFileSpec`). -/
theorem shouldIncludeFile_ordered_rules (fg : FileGatherer) (path : String)
    (extInclude extExclude : List String) :
    shouldIncludeFile fg path extInclude extExclude
      = shouldIncludeFileSpec fg.config.IncludeHidden path extInclude extExclude := by
  unfold shouldIncludeFile shouldIncludeFileSpec
  by_cases h1 : memb extExclude (goBase path) = true <;>
    by_cases h2 : fg.config.IncludeHidden = true <;>
      by_cases h2' : goStartsWith (goBase path) "." = true <;>
        by_cases h3 : goExt path = "" <;>
          by_cases h4 : memb extExclude (goExt path) = true <;>
            simp_all [h3]

/-- Claim C7: `ShouldIgnore` holds exactly when relativisation against the
scan root succeeds with a value other than `.` and some compiled pattern
matches its slash-normalised form; the scan root itself is never
ignored. -/
theorem ShouldIgnore_iff_and_root (gp : GitignoreParser) (path : String) :
    (ShouldIgnore gp path = true ↔
      ∃ r, goRel gp.basePath path = .ok r ∧ r ≠ "." ∧
        gp.patterns.any (fun g => globMatch g (goToSlash r)) = true)
    ∧ ShouldIgnore gp gp.basePath = false := by
  constructor
  · unfold ShouldIgnore
    cases hrel : goRel gp.basePath path with
    | error e => simp
    | ok r =>
      by_cases hdot : r = "."
      · simp [hdot]
      · simp [hdot]
  · have hself : goRel gp.basePath gp.basePath = .ok "." := by
      unfold goRel goRelL
      simp
    unfold ShouldIgnore
    rw [hself]
    simp

/-- Claim C10: when relativisation against the scan root fails,
`ShouldIgnore` returns `false` — the error never escapes the matcher. -/
theorem ShouldIgnore_relError_false (gp : GitignoreParser) (path e : String)
    (h : goRel gp.basePath path = .error e) :
    ShouldIgnore gp path = false := by
  unfold ShouldIgnore
  rw [h]

/-- Claim C10 witness: a relative query path cannot be relativised against
the absolute root `/root`, and `ShouldIgnore` answers `false` even though
the loaded `*` pattern would match everything. -/
theorem ShouldIgnore_relError_false_witness :
    goRel "/root" "foo" = .error "Rel: cannot make foo relative to /root"
    ∧ ShouldIgnore (LoadGitignore (NewGitignoreParser "/root") (.content ["*"])).1 "foo"
        = false := by
  refine ⟨by decide, ?_⟩
  exact ShouldIgnore_relError_false _ "foo"
    "Rel: cannot make foo relative to /root" (by decide)

/-- Claim C8: whenever `GatherFiles` returns a non-nil error (a worker or
producer failure, or a propagated cancellation), the returned file list is
empty — records already drained are discarded, never returned as a partial list. -/
theorem GatherFiles_error_returns_nil (fg : FileGatherer) (scanErr : Option GoErr)
    (drained : List FileInfo)
    (h : (GatherFiles fg scanErr drained).2 ≠ none) :
    (GatherFiles fg scanErr drained).1 = [] := by
  cases scanErr with
  | none => exact absurd rfl h
  | some e => rfl

/-- Claim C2: with no ignore-file at the scan root, `LoadGitignore`
swallows the not-exist error and returns `nil`, so
`gitignoreExists = !os.IsNotExist(nil)` is `true` and `prepareDirFilters`
narrows to the version-control list — the comprehensive default
exclude-directory list is never used: a scan of
`{main.go, node_modules/lib.js}` without an ignore-file returns the file
inside `node_modules` instead of pruning it. -/
theorem noGitignore_still_narrows_dirFilters :
    (NewFileGatherer {} "/r" .notExist).gitignoreExists = true
    ∧ prepareDirFilters (NewFileGatherer {} "/r" .notExist)
        (NewFileGatherer {} "/r" .notExist).gitignoreExists
        = [".git", ".svn", ".hg"]
    ∧ memb
        (prepareDirFilters (NewFileGatherer {} "/r" .notExist)
          (NewFileGatherer {} "/r" .notExist).gitignoreExists)
        "node_modules" = false
    ∧ (GatherFiles (NewFileGatherer {} "/r" .notExist) none
          (processedFiles (NewFileGatherer {} "/r" .notExist)
            (.dcons "main.go" (.file [112])
              (.dcons "node_modules"
                (.dcons "lib.js" (.file [47]) .dnil) .dnil)))).1.map (·.Path)
        = ["main.go", "node_modules/lib.js"] := by
  refine ⟨by decide, by decide, by decide, by decide⟩

/-- Claim C3 counterexample: with the ignore-file present but unreadable
(`.otherError`, e.g. permissions), the scan does not fail — it returns the
gathered file list and no error. -/
theorem unreadableGitignore_scan_succeeds :
    (GatherFiles (NewFileGatherer {} "/r" .otherError) none
        (processedFiles (NewFileGatherer {} "/r" .otherError)
          (.dcons "main.go" (.file [112]) .dnil))).2 = none
    ∧ (GatherFiles (NewFileGatherer {} "/r" .otherError) none
        (processedFiles (NewFileGatherer {} "/r" .otherError)
          (.dcons "main.go" (.file [112]) .dnil))).1.map (·.Path)
        = ["main.go"] := by
  refine ⟨by decide, by decide⟩

/-- Claim C3 as amended: `LoadGitignore` does report a read failure other
than non-existence, but `NewFileGatherer` only logs it (`logger.Warn`) and
continues with an empty rule set, so the scan proceeds normally and
returns its file list; absence of the ignore-file is not an error and also
yields an empty rule set. -/
theorem unreadableGitignore_warns_and_continues (cfg : Config) (root : String)
    (t : FsTree) (drained : List FileInfo) :
    (LoadGitignore (NewGitignoreParser root) .otherError).2 = some .permission
    ∧ (NewFileGatherer cfg root .otherError).gitignoreParser.patterns = []
    ∧ GatherFiles (NewFileGatherer cfg root .otherError) none drained
        = (sortByPath drained, none)
    ∧ LoadGitignore (NewGitignoreParser root) .notExist
        = (NewGitignoreParser root, none) := by
  exact ⟨rfl, rfl, rfl, rfl⟩

/-- Claim C6: the root-anchored directory pattern `/build/` ignores the
root-level `build` directory and everything beneath it but not the nested
`src/build`, while the unanchored `docs/` ignores a `docs` directory at
any depth together with its contents. -/
theorem anchored_vs_unanchored_dir_pattern :
    translateGitignoreToGlobs "/build/" = ["build", "build/**"]
    ∧ translateGitignoreToGlobs "docs/" = ["\x7b,**/\x7ddocs", "\x7b,**/\x7ddocs/**"]
    ∧ ShouldIgnore
        (LoadGitignore (NewGitignoreParser "/root") (.content ["/build/"])).1
        "/root/build" = true
    ∧ ShouldIgnore
        (LoadGitignore (NewGitignoreParser "/root") (.content ["/build/"])).1
        "/root/build/output.txt" = true
    ∧ ShouldIgnore
        (LoadGitignore (NewGitignoreParser "/root") (.content ["/build/"])).1
        "/root/src/build" = false
    ∧ ShouldIgnore
        (LoadGitignore (NewGitignoreParser "/root") (.content ["/build/"])).1
        "/root/src/build/somefile.txt" = false
    ∧ ShouldIgnore
        (LoadGitignore (NewGitignoreParser "/root") (.content ["docs/"])).1
        "/root/docs" = true
    ∧ ShouldIgnore
        (LoadGitignore (NewGitignoreParser "/root") (.content ["docs/"])).1
        "/root/docs/guide.md" = true
    ∧ ShouldIgnore
        (LoadGitignore (NewGitignoreParser "/root") (.content ["docs/"])).1
        "/root/src/docs" = true
    ∧ ShouldIgnore
        (LoadGitignore (NewGitignoreParser "/root") (.content ["docs/"])).1
        "/root/src/docs/guide.md" = true := by
  refine ⟨by decide, by decide, by decide, by decide, by decide, by decide,
    by decide, by decide, by decide, by decide⟩

/-- Claim C8 witness: a cancelled scan that had already drained one record
returns the empty list. -/
theorem GatherFiles_error_returns_nil_witness :
    (GatherFiles (NewFileGatherer {} "/r" .notExist) (some .cancelled)
        [⟨"a.go", 1, [97]⟩]).2 ≠ none
    ∧ (GatherFiles (NewFileGatherer {} "/r" .notExist) (some .cancelled)
        [⟨"a.go", 1, [97]⟩]).1 = [] := by
  refine ⟨by decide, ?_⟩
  exact GatherFiles_error_returns_nil _ _ _ (by decide)

end Code2md
